import Mathlib

/-!
# Shallow embedding of `ld.py` (tomevans/limbdark)

This file embeds the limb-darkening pipeline of `ld.py` over exact rationals:

* machine floats become `ℚ` (exact arithmetic; the IEEE rounding of the
  source is not modelled, algebraic structure is);
* the irrational powers `mu**(1/2)` and `mu**(3/2)` appearing in the
  nonlinear law bases are abstracted by an explicit power-function
  parameter `pwf : ℚ → ℚ → ℚ` standing for float `**` at non-integer
  exponents; every theorem below is proved for every `pwf`;
* numpy arrays become `List ℚ` / `List (List ℚ)`; fallible numpy
  operations (indexing an empty array, `np.interp` with an empty sample
  array, subscripting `None`) become `Except FitError`;
* `np.argsort` followed by fancy-indexing of the parallel arrays is
  modelled as a stable sort of the zipped pairs (numpy's default
  quicksort leaves tie order unspecified; the stable order is one
  admissible refinement);
* `np.interp` is modelled by a linear scan, which agrees with numpy's
  binary search whenever the sample abscissae are sorted, as `np.interp`
  requires;
* `scipy.integrate.simps` (composite Simpson, non-uniform abscissae,
  default `even='avg'`) is transcribed literally;
* `np.linalg.lstsq` is modelled by the minimum-norm least-squares
  solution computed through Greville's column-recursive pseudoinverse,
  which is total, as the numpy call is.
-/

namespace LimbDark

/-- Failure modes of the pipeline, one constructor per site in `ld.py`
where the Python code raises.  The doc of each constructor records the
exception the interpreter actually raises there. -/
inductive FitError where
  /-- `TypeError` at line 20: `passband_sensitivity[ixs]` with
  `passband_sensitivity is None` (the `None` check at line 50 sits after
  this dereference and is unreachable). -/
  | noneSensitivity
  /-- `IndexError` from fancy-indexing `passband_sensitivity` with the
  argsort index array when the sensitivity array is shorter than the
  wavelength array (line 20), or from the boolean mask of line 32 applied
  to an intensity array whose first axis disagrees with the wavelength
  axis (line 35). -/
  | shapeMismatch
  /-- `ValueError` at line 22: `.min()` of an empty passband wavelength
  array. -/
  | emptyPassband
  /-- `ValueError` at line 44: `np.interp` with an empty array of sample
  points, i.e. no stellar-grid wavelength fell inside `[wavl, wavu]`. -/
  | emptyGridWindow
  /-- `IndexError` at line 93: `ixs[0]` when no index of the resampled
  axis has positive interpolated sensitivity. -/
  | noPositiveSensitivity
  /-- `IndexError` at line 105: `integrated_intensities[0]` when
  `grid_mu` is empty. -/
  | noMuValues
  /-- `IndexError` inside a law function's coefficient branch when a
  coefficient index is out of bounds (`coeffs[1]` in `linear_ld`). -/
  | coeffIndexError
deriving DecidableEq, Repr

/-- `a.min()` of a numpy array, as a total function on lists; the empty
case is guarded by `FitError.emptyPassband` wherever the source can
reach it. -/
def listMin : List ℚ → ℚ
  | [] => 0
  | h :: t => t.foldl min h

/-- `a.max()` of a numpy array, as a total function on lists. -/
def listMax : List ℚ → ℚ
  | [] => 0
  | h :: t => t.foldl max h

/-- Piecewise-linear interpolation scan over the zipped sample points:
given `(x0,y0) :: (x1,y1) :: …`, a query in `(x0, x1]` is interpolated
on the first segment, larger queries recurse; a query beyond the last
point clamps to the last ordinate. -/
def interpSegs : List (ℚ × ℚ) → ℚ → ℚ
  | [], _ => 0
  | [(_, y0)], _ => y0
  | (x0, y0) :: (x1, y1) :: rest, x =>
      if x ≤ x1 then y0 + (y1 - y0) * (x - x0) / (x1 - x0)
      else interpSegs ((x1, y1) :: rest) x

/-- `np.interp(x, xp, fp)` at one query point, for sorted `xp` (numpy
assumes sortedness without checking): queries at or below `xp[0]` clamp
to `fp[0]`, queries beyond `xp[-1]` clamp to `fp[-1]`, interior queries
are linearly interpolated. -/
def interpOne (xp fp : List ℚ) (x : ℚ) : ℚ :=
  match xp, fp with
  | x0 :: _, f0 :: _ => if x ≤ x0 then f0 else interpSegs (xp.zip fp) x
  | _, _ => 0

/-- `np.linspace(a, b, n)`: `n` evenly spaced points from `a` to `b`
inclusive.  (For `n = 1` the `ℚ`-division by `n - 1 = 0` yields `0`, so
the single point is `a`, as numpy returns.) -/
def linspace (a b : ℚ) (n : ℕ) : List ℚ :=
  (List.range n).map (fun (i : ℕ) => a + (i : ℚ) * (b - a) / ((n : ℚ) - 1))

/-- One term of `scipy.integrate._basic_simps` for a non-uniform triple
of abscissae: with `h0 = x1 - x0`, `h1 = x2 - x1`, the contribution is
`(h0+h1)/6 * (y0*(2 - h1/h0) + y1*(h0+h1)^2/(h0*h1) + y2*(2 - h0/h1))`,
summed over consecutive interval pairs (stride two). -/
def simpsTriples : List (ℚ × ℚ) → ℚ
  | (x0, y0) :: (x1, y1) :: (x2, y2) :: rest =>
      let h0 := x1 - x0
      let h1 := x2 - x1
      (h0 + h1) / 6 *
          (y0 * (2 - h1 / h0) + y1 * ((h0 + h1) ^ 2 / (h0 * h1)) +
            y2 * (2 - h0 / h1)) +
        simpsTriples ((x2, y2) :: rest)
  | _ => 0

/-- Trapezoid over the first two points of a point list,
`(x1 - x0) * (y0 + y1) / 2`. -/
def trapzHead : List (ℚ × ℚ) → ℚ
  | (x0, y0) :: (x1, y1) :: _ => (x1 - x0) * (y0 + y1) / 2
  | _ => 0

/-- `scipy.integrate.simps(y, x=x)` with the default `even='avg'`: for an
odd number of points, composite Simpson over consecutive interval pairs;
for an even number, the average of (Simpson on the first `N-1` points
plus trapezoid on the last interval) and (trapezoid on the first interval
plus Simpson on the last `N-1` points). -/
def simps (y x : List ℚ) : ℚ :=
  let pts := x.zip y
  if y.length % 2 == 1 then simpsTriples pts
  else
    (simpsTriples pts.dropLast + (- trapzHead pts.reverse) +
        simpsTriples pts.tail + trapzHead pts) / 2

/-- Dot product of two coefficient vectors. -/
def dotQ (a b : List ℚ) : ℚ :=
  (List.zipWith (· * ·) a b).sum

/-- Matrix · vector for a row-major matrix. -/
def matVec (m : List (List ℚ)) (v : List ℚ) : List ℚ :=
  m.map (fun r => dotQ r v)

/-- Pointwise product of two arrays (numpy `*`). -/
def amul (a b : List ℚ) : List ℚ :=
  List.zipWith (· * ·) a b

/-! ## Law basis matrices (the `coeffs is None` branches)

Each basis matrix has one row per `mu` and one column per coefficient,
exactly the columns assigned in the source.  `pwf b e` models the float
power `b ** e` at the non-integer exponents `1/2` and `3/2`; integer
powers are exact in `ℚ` and written as such. -/

/-- `linear_ld` basis: column 0 is `-(1 - mu)` (lines 153-155). -/
def linearBasis (mus : List ℚ) : List (List ℚ) :=
  mus.map (fun mu => [-(1 - mu)])

/-- `quadratic_ld` basis: columns `-(1 - mu)`, `-((1 - mu)^2)`
(lines 181-184). -/
def quadraticBasis (mus : List ℚ) : List (List ℚ) :=
  mus.map (fun mu => [-(1 - mu), -((1 - mu) ^ 2)])

/-- `threeparam_nonlin_ld` basis: columns `-(1 - mu)`,
`-(1 - mu^(3/2))`, `-(1 - mu^2)` (lines 210-214). -/
def threeparamBasis (pwf : ℚ → ℚ → ℚ) (mus : List ℚ) : List (List ℚ) :=
  mus.map (fun mu => [-(1 - mu), -(1 - pwf mu (3 / 2)), -(1 - mu ^ 2)])

/-- `fourparam_nonlin_ld` basis: columns `-(1 - mu^(1/2))`, `-(1 - mu)`,
`-(1 - mu^(3/2))`, `-(1 - mu^2)` (lines 241-246). -/
def fourparamBasis (pwf : ℚ → ℚ → ℚ) (mus : List ℚ) : List (List ℚ) :=
  mus.map (fun mu =>
    [-(1 - pwf mu (1 / 2)), -(1 - mu), -(1 - pwf mu (3 / 2)), -(1 - mu ^ 2)])

/-! ## The law functions as written in the source

Each mirrors the Python function: with `coeffs = none` it returns the
basis matrix (`Sum.inl`), otherwise the evaluated curve (`Sum.inr`),
reading the coefficient entries at the indices the source reads.  A
coefficient index that is out of bounds is the `IndexError` of the
interpreter, hence the `Except`. -/

/-- `linear_ld(mus, coeffs)` (lines 135-160).  Note the `coeffs` branch
reads `coeffs[1]`, as the source does. -/
def linear_ld (mus : List ℚ) (coeffs : Option (List ℚ)) :
    Except FitError (String × (List (List ℚ) ⊕ List ℚ)) :=
  match coeffs with
  | none => .ok ("linear", Sum.inl (linearBasis mus))
  | some cs =>
      match cs.get? 1 with
      | none => .error .coeffIndexError
      | some c1 => .ok ("linear", Sum.inr (mus.map (fun mu => 1 - c1 * (1 - mu))))

/-- `quadratic_ld(mus, coeffs)` (lines 163-190). -/
def quadratic_ld (mus : List ℚ) (coeffs : Option (List ℚ)) :
    Except FitError (String × (List (List ℚ) ⊕ List ℚ)) :=
  match coeffs with
  | none => .ok ("quadratic", Sum.inl (quadraticBasis mus))
  | some cs =>
      match cs.get? 0, cs.get? 1 with
      | some c0, some c1 =>
          .ok ("quadratic",
            Sum.inr (mus.map (fun mu => 1 - c0 * (1 - mu) - c1 * ((1 - mu) ^ 2))))
      | _, _ => .error .coeffIndexError

/-- `threeparam_nonlin_ld(mus, coeffs)` (lines 193-221). -/
def threeparam_nonlin_ld (pwf : ℚ → ℚ → ℚ) (mus : List ℚ)
    (coeffs : Option (List ℚ)) :
    Except FitError (String × (List (List ℚ) ⊕ List ℚ)) :=
  match coeffs with
  | none => .ok ("threeparam_nonlin", Sum.inl (threeparamBasis pwf mus))
  | some cs =>
      match cs.get? 0, cs.get? 1, cs.get? 2 with
      | some c0, some c1, some c2 =>
          .ok ("threeparam_nonlin",
            Sum.inr (mus.map (fun mu =>
              1 - c0 * (1 - mu) - c1 * (1 - pwf mu (3 / 2)) - c2 * (1 - mu ^ 2))))
      | _, _, _ => .error .coeffIndexError

/-- `fourparam_nonlin_ld(mus, coeffs)` (lines 224-254). -/
def fourparam_nonlin_ld (pwf : ℚ → ℚ → ℚ) (mus : List ℚ)
    (coeffs : Option (List ℚ)) :
    Except FitError (String × (List (List ℚ) ⊕ List ℚ)) :=
  match coeffs with
  | none => .ok ("fourparam_nonlin", Sum.inl (fourparamBasis pwf mus))
  | some cs =>
      match cs.get? 0, cs.get? 1, cs.get? 2, cs.get? 3 with
      | some c0, some c1, some c2, some c3 =>
          .ok ("fourparam_nonlin",
            Sum.inr (mus.map (fun mu =>
              1 - c0 * (1 - pwf mu (1 / 2)) - c1 * (1 - mu) -
                c2 * (1 - pwf mu (3 / 2)) - c3 * (1 - mu ^ 2))))
      | _, _, _, _ => .error .coeffIndexError

/-! ## `np.linalg.lstsq`

numpy's `lstsq` returns, for any `m × k` system, the least-squares
solution of minimum norm (computed there by SVD); it does not fail on
rank-deficient or underdetermined systems.  We model it by the
Moore-Penrose pseudoinverse computed with Greville's column-recursive
algorithm, which is total and exact over `ℚ`. -/

/-- `m`-dimensional zero vector. -/
def zerosQ (m : ℕ) : List ℚ :=
  List.replicate m (0 : ℚ)

/-- Pointwise sum of two vectors. -/
def vadd (a b : List ℚ) : List ℚ :=
  List.zipWith (· + ·) a b

/-- Pointwise difference of two vectors. -/
def vsub (a b : List ℚ) : List ℚ :=
  List.zipWith (· - ·) a b

/-- Scalar multiple of a vector. -/
def vscale (c : ℚ) (a : List ℚ) : List ℚ :=
  a.map (c * ·)

/-- Linear combination `Σ dⱼ · colsⱼ` of a list of `m`-vectors. -/
def lincomb (m : ℕ) (cols : List (List ℚ)) (d : List ℚ) : List ℚ :=
  (cols.zip d).foldl (fun acc p => vadd acc (vscale p.2 p.1)) (zerosQ m)

/-- One Greville step: extend the pseudoinverse `G` of the matrix with
columns `cols` (each an `m`-vector) by a new column `a`. -/
def grevilleStep (m : ℕ) (st : List (List ℚ) × List (List ℚ)) (a : List ℚ) :
    List (List ℚ) × List (List ℚ) :=
  let G := st.1
  let cols := st.2
  let d := matVec G a
  let c := vsub a (lincomb m cols d)
  let b :=
    if dotQ c c ≠ 0 then vscale (1 / dotQ c c) c
    else vscale (1 / (1 + dotQ d d)) (lincomb m G d)
  (List.zipWith (fun gRow dj => vsub gRow (vscale dj b)) G d ++ [b], cols ++ [a])

/-- Moore-Penrose pseudoinverse of a row-major `m × k` matrix, by
Greville's recursion over its columns; the result has `k` rows of
length `m`. -/
def pinv (A : List (List ℚ)) : List (List ℚ) :=
  (A.transpose.foldl (grevilleStep A.length) ([], [])).1

/-- `np.linalg.lstsq(A, b)[0]`: the minimum-norm least-squares solution
`A⁺ · b`. -/
def lstsq (A : List (List ℚ)) (b : List ℚ) : List ℚ :=
  matVec (pinv A) b

/-! ## Pipeline stages of `fit_law` -/

/-- Stable sort of parallel arrays by the first one: models
`ixs = np.argsort(wav); wav[ixs]; sens[ixs]` (lines 18-20 and 54-56),
zipping the arrays and sorting the pairs by wavelength. -/
def sortPairs (l : List (ℚ × ℚ)) : List (ℚ × ℚ) :=
  l.mergeSort (fun a b => decide (a.1 ≤ b.1))

/-- Lines 17-25: sort the passband by wavelength, then prepend a point
at `min - 0.01` and append a point at `max + 0.01`, both with zero
sensitivity.  A sensitivity array shorter than the wavelength array
would make the fancy-indexing of line 20 raise (`shapeMismatch`); an
empty wavelength array makes `.min()` of line 22 raise
(`emptyPassband`). -/
def padPassband (wav sens : List ℚ) : Except FitError (List ℚ × List ℚ) :=
  if sens.length < wav.length then .error .shapeMismatch
  else
    let ps := sortPairs (wav.zip sens)
    match ps with
    | [] => .error .emptyPassband
    | _ =>
        let w := ps.map Prod.fst
        let s := ps.map Prod.snd
        let wl := listMin w - 1 / 100
        let wu := listMax w + 1 / 100
        .ok (wl :: w ++ [wu], 0 :: s ++ [0])

/-- Lines 32-35: keep the grid rows whose wavelength lies in
`[wavl, wavu]`.  An intensity array whose first axis disagrees with the
wavelength axis makes the boolean mask of line 35 raise. -/
def restrictGrid (wav : List ℚ) (rows : List (List ℚ)) (wavl wavu : ℚ) :
    Except FitError (List ℚ × List (List ℚ)) :=
  if rows.length ≠ wav.length then .error .shapeMismatch
  else
    let pairs := (wav.zip rows).filter (fun p => decide (wavl ≤ p.1 ∧ p.1 ≤ wavu))
    .ok (pairs.map Prod.fst, pairs.map Prod.snd)

/-- Lines 38-46: the uniform axis `xf = np.linspace(wavl, wavu, n)` and,
for each of the `nmu` intensity columns, its linear interpolation onto
`xf`.  `np.interp` with an empty sample array raises (line 44); the loop
body runs only when `nmu > 0`, so with no mu values an empty window goes
unnoticed here, exactly as in the source. -/
def resampleN (n : ℕ) (wavl wavu : ℚ) (restWav : List ℚ)
    (restRows : List (List ℚ)) (nmu : ℕ) :
    Except FitError (List ℚ × List (List ℚ)) :=
  if restWav = [] ∧ nmu ≠ 0 then .error .emptyGridWindow
  else
    let xf := linspace wavl wavu n
    .ok (xf,
      (List.range nmu).map (fun i =>
        xf.map (interpOne restWav (restRows.map (fun r => r.getD i 0)))))

/-- Lines 54-57: re-sort the (padded) passband by wavelength and divide
the sensitivities by their maximum. -/
def normalizePassband (wav sens : List ℚ) : List ℚ × List ℚ :=
  ((sortPairs (wav.zip sens)).map Prod.fst,
    ((sortPairs (wav.zip sens)).map Prod.snd).map
      (· / listMax ((sortPairs (wav.zip sens)).map Prod.snd)))

/-- `l[ixs]` for an index array that is in bounds by construction. -/
def gatherD (l : List ℚ) (ixs : List ℕ) : List ℚ :=
  ixs.map (fun i => l.getD i 0)

/-- Lines 86-104: the per-mu passband integrals before the final
normalization.  `y = x*mask*sens`; the normalization integral runs over
the indices of positive interpolated sensitivity, extended by one index
on each side and clamped to `[0, nwav)` (lines 92-94); each per-mu
integral runs over the whole axis; `ixs[0]` of an empty positive set
raises (line 93). -/
def integratorRaw (xf mask isens : List ℚ) (cols : List (List ℚ)) :
    Except FitError (List ℚ) :=
  let n := xf.length
  let y := amul (amul xf mask) isens
  let pos := (List.range n).filter (fun i => decide (0 < isens.getD i 0))
  match pos with
  | [] => .error .noPositiveSensitivity
  | p0 :: rest =>
      let pI : List ℤ :=
        ((p0 : ℤ) - 1) :: (pos.map (fun (i : ℕ) => (i : ℤ)) ++
          [((rest.getLastD p0 : ℕ) : ℤ) + 1])
      let ixs := (pI.filter (fun i => decide (0 ≤ i ∧ i < (n : ℤ)))).map Int.toNat
      let normfactor := simps (gatherD y ixs) (gatherD xf ixs)
      .ok (cols.map (fun c => simps (amul y c) xf / normfactor))

/-- Line 105: divide the integral vector by its own first entry;
`integrated_intensities[0]` of an empty vector raises. -/
def integratorOut (xf mask isens : List ℚ) (cols : List (List ℚ)) :
    Except FitError (List ℚ) :=
  match integratorRaw xf mask isens cols with
  | .error e => .error e
  | .ok w =>
      match w with
      | [] => .error .noMuValues
      | i0 :: _ => .ok (w.map (· / i0))

/-- Line 110: the list of laws iterated by the fitter, in source order,
each paired with its basis-matrix builder (the `coeffs=None` branch of
the corresponding law function). -/
def lawBases (pwf : ℚ → ℚ → ℚ) : List (String × (List ℚ → List (List ℚ))) :=
  [("fourparam_nonlin", fourparamBasis pwf),
   ("threeparam_nonlin", threeparamBasis pwf),
   ("quadratic", quadraticBasis),
   ("linear", linearBasis)]

/-- Lines 109-124: for each law, build the basis matrix over all mu
values, keep the rows with `mu >= 0` (`fourparam_nonlin`) or
`mu >= 0.05` (the other three), and solve the least-squares system
`phi[ixs,:] · coeffs = integrated[ixs] - 1`.  The Python dict preserves
insertion order, modelled as an association list in iteration order. -/
def fitLdCoeffs (pwf : ℚ → ℚ → ℚ) (grid_mu ii : List ℚ) :
    List (String × List ℚ) :=
  (lawBases pwf).map (fun law =>
    let phi := law.2 grid_mu
    let thresh : ℚ := if law.1 == "fourparam_nonlin" then 0 else 1 / 20
    let sel := ((grid_mu.zip phi).zip ii).filter (fun p => decide (thresh ≤ p.1.1))
    (law.1, lstsq (sel.map (fun p => p.1.2)) ((sel.map Prod.snd).map (· - 1))))

/-- Line 29: `wavl = cuton_wav_nm - 0.1*dwav`, the lower edge of the
grid-restriction window. -/
def windowLo (cuton cutoff : ℚ) : ℚ :=
  cuton - 1 / 10 * (cutoff - cuton)

/-- Line 30: `wavu = cutoff_wav_nm + 0.1*dwav`, the upper edge of the
grid-restriction window. -/
def windowHi (cuton cutoff : ℚ) : ℚ :=
  cutoff + 1 / 10 * (cutoff - cuton)

/-- `fit_law` with the resampling resolution `n` left as a parameter
(the source hard-codes `nf = int(1e6)`, see `nf` and `fit_law`).  The
stages run in source order: passband sort/pad (17-25, dereferencing a
`None` sensitivity first, as line 20 does), window restriction (27-35),
resampling (38-46), passband normalization (54-57; the `None` boxcar
branch of lines 50-51 is unreachable because line 20 has already
raised), mask and sensitivity interpolation (75-83), integration
(86-105), least-squares fits (109-124). -/
def fit_lawN (pwf : ℚ → ℚ → ℚ) (n : ℕ) (grid_mu grid_wav_nm : List ℚ)
    (grid_intensities : List (List ℚ)) (passband_wav_nm : List ℚ)
    (cuton_wav_nm cutoff_wav_nm : ℚ) (passband_sensitivity : Option (List ℚ)) :
    Except FitError (List (String × List ℚ)) :=
  match passband_sensitivity with
  | none => .error .noneSensitivity
  | some sens0 =>
      match padPassband passband_wav_nm sens0 with
      | .error e => .error e
      | .ok pb =>
          let wavl := windowLo cuton_wav_nm cutoff_wav_nm
          let wavu := windowHi cuton_wav_nm cutoff_wav_nm
          match restrictGrid grid_wav_nm grid_intensities wavl wavu with
          | .error e => .error e
          | .ok rg =>
              match resampleN n wavl wavu rg.1 rg.2 grid_mu.length with
              | .error e => .error e
              | .ok rs =>
                  let xf := rs.1
                  let pbn := normalizePassband pb.1 pb.2
                  let isens := xf.map (interpOne pbn.1 pbn.2)
                  let mask := xf.map (fun w =>
                    if cuton_wav_nm ≤ w ∧ w ≤ cutoff_wav_nm then (1 : ℚ) else 0)
                  match integratorOut xf mask isens rs.2 with
                  | .error e => .error e
                  | .ok ii => .ok (fitLdCoeffs pwf grid_mu ii)

/-- Line 38: `nf = int(1e6)`, the hard-coded resampling resolution. -/
def nf : ℕ := 1000000

/-- `fit_law` as in the source: `fit_lawN` at the hard-coded resolution
`nf`. -/
def fit_law (pwf : ℚ → ℚ → ℚ) (grid_mu grid_wav_nm : List ℚ)
    (grid_intensities : List (List ℚ)) (passband_wav_nm : List ℚ)
    (cuton_wav_nm cutoff_wav_nm : ℚ) (passband_sensitivity : Option (List ℚ)) :
    Except FitError (List (String × List ℚ)) :=
  fit_lawN pwf nf grid_mu grid_wav_nm grid_intensities passband_wav_nm
    cuton_wav_nm cutoff_wav_nm passband_sensitivity

/-! ## Store model of the numpy array operations

`fit_law` mutates arrays in place at three points (the per-column fills
of `yf`, `mask[ixs] = 1`, and the two `/=` statements); the frame claim
is that none of these ever hits a caller-supplied array.  To state that,
the pipeline is replayed over an explicit store: every array-producing
numpy operation (fancy indexing, `np.concatenate`, boolean-mask
selection, `np.linspace`, `np.zeros`, `np.interp`, arithmetic,
`np.linalg.lstsq`) allocates a fresh cell, and each in-place statement
writes to the cell of the array it targets.  Loops that repeatedly write
one array are collapsed to a single write of the final value (same
footprint); integer index arrays, which are temporaries the claim does
not mention, are kept as pure values. -/

/-- A numpy array value: one- or two-dimensional. -/
inductive ArrVal where
  | one (l : List ℚ)
  | two (m : List (List ℚ))
deriving DecidableEq

/-- A store of array cells together with the allocation frontier: cells
at addresses `≥ next` are unallocated. -/
structure Heap where
  data : ℕ → Option ArrVal
  next : ℕ

/-- Allocate a fresh cell holding `v`, returning the address. -/
def Heap.alloc (h : Heap) (v : ArrVal) : Heap × ℕ :=
  ({ data := Function.update h.data h.next (some v), next := h.next + 1 }, h.next)

/-- Write `v` in place into the cell at address `i`. -/
def Heap.write (h : Heap) (i : ℕ) (v : ArrVal) : Heap :=
  { h with data := Function.update h.data i (some v) }

/-- Read a one-dimensional array from the store. -/
def Heap.read1 (h : Heap) (i : ℕ) : List ℚ :=
  match h.data i with
  | some (.one l) => l
  | _ => []

/-- Read a two-dimensional array from the store. -/
def Heap.read2 (h : Heap) (i : ℕ) : List (List ℚ) :=
  match h.data i with
  | some (.two m) => m
  | _ => []

/-- The pipeline of `fit_law` replayed over the store.  The caller's
five arrays live at `lmu`, `lgw`, `lgi`, `lpw`, `lps`; the returned
store is the memory state when the call returns or raises.  Values are
computed by the pure stage functions, so the result component agrees
with `fit_lawN` on the read values (`fit_law_heap_result`). -/
def fit_law_heap (pwf : ℚ → ℚ → ℚ) (n : ℕ) (cuton cutoff : ℚ)
    (lmu lgw lgi lpw lps : ℕ) (h0 : Heap) :
    Heap × Except FitError (List (String × List ℚ)) :=
  let gm := h0.read1 lmu
  let gw := h0.read1 lgw
  let gi := h0.read2 lgi
  let pw0 := h0.read1 lpw
  let ps0 := h0.read1 lps
  -- lines 18-20: argsort and two fancy-indexed copies
  let sorted := sortPairs (pw0.zip ps0)
  let st1 := h0.alloc (.one (sorted.map Prod.fst))
  let st2 := st1.1.alloc (.one (sorted.map Prod.snd))
  match padPassband pw0 ps0 with
  | .error e => (st2.1, .error e)
  | .ok pb =>
      -- lines 24-25: two concatenated copies
      let st3 := st2.1.alloc (.one pb.1)
      let st4 := st3.1.alloc (.one pb.2)
      let wavl := windowLo cuton cutoff
      let wavu := windowHi cuton cutoff
      match restrictGrid gw gi wavl wavu with
      | .error e => (st4.1, .error e)
      | .ok rg =>
          -- lines 34-35: two mask-selected copies
          let st5 := st4.1.alloc (.one rg.1)
          let st6 := st5.1.alloc (.two rg.2)
          -- line 40: xf; line 42: yf = zeros
          let st7 := st6.1.alloc (.one (linspace wavl wavu n))
          let st8 := st7.1.alloc (.two [])
          match resampleN n wavl wavu rg.1 rg.2 gm.length with
          | .error e => (st8.1, .error e)
          | .ok rs =>
              -- lines 43-44: the column loop fills yf in place
              let h9 := st8.1.write st8.2 (.two rs.2)
              -- lines 54-56: argsort and two fancy-indexed copies
              let sorted2 := sortPairs (pb.1.zip pb.2)
              let st10 := h9.alloc (.one (sorted2.map Prod.fst))
              let st11 := st10.1.alloc (.one (sorted2.map Prod.snd))
              -- line 57: `/=` in place on the copy just allocated
              let pbn := normalizePassband pb.1 pb.2
              let h12 := st11.1.write st11.2 (.one pbn.2)
              -- line 76: mask = zeros; line 81: mask[ixs] = 1 in place
              let xf := rs.1
              let st13 := h12.alloc (.one (zerosQ xf.length))
              let mask := xf.map (fun w =>
                if cuton ≤ w ∧ w ≤ cutoff then (1 : ℚ) else 0)
              let h14 := st13.1.write st13.2 (.one mask)
              -- line 83: interpolated sensitivity
              let isens := xf.map (interpOne pbn.1 pbn.2)
              let st15 := h14.alloc (.one isens)
              -- line 87: integrated_intensities = zeros
              let st16 := st15.1.alloc (.one (zerosQ gm.length))
              match integratorRaw xf mask isens rs.2 with
              | .error e => (st16.1, .error e)
              | .ok w =>
                  -- lines 97-104: the loop fills the integrals in place
                  let h17 := st16.1.write st16.2 (.one w)
                  match w with
                  | [] => (h17, .error .noMuValues)
                  | i0 :: _ =>
                      -- line 105: `/=` its first entry, in place
                      let ii := w.map (· / i0)
                      let h18 := h17.write st16.2 (.one ii)
                      -- lines 115-124: per-law basis and coefficient arrays
                      let fits := fitLdCoeffs pwf gm ii
                      let st19 := h18.alloc (.two (fourparamBasis pwf gm))
                      let st20 := st19.1.alloc (.one ((fits.getD 0 ("", [])).2))
                      let st21 := st20.1.alloc (.two (threeparamBasis pwf gm))
                      let st22 := st21.1.alloc (.one ((fits.getD 1 ("", [])).2))
                      let st23 := st22.1.alloc (.two (quadraticBasis gm))
                      let st24 := st23.1.alloc (.one ((fits.getD 2 ("", [])).2))
                      let st25 := st24.1.alloc (.two (linearBasis gm))
                      let st26 := st25.1.alloc (.one ((fits.getD 3 ("", [])).2))
                      (st26.1, .ok fits)

/-- `h'` extends `h`: the allocation frontier has not decreased and
every cell below `h`'s frontier is unchanged. -/
def heapPreserves (h h' : Heap) : Prop :=
  h.next ≤ h'.next ∧ ∀ i < h.next, h'.data i = h.data i

/-- A concrete instantiation of the abstract power function, used when a
counterexample needs a closed term; the counterexamples below do not
depend on its values. -/
def pwf0 : ℚ → ℚ → ℚ := fun b _ => b

deriving instance DecidableEq for Except

/-! # Theorems -/

/-! ## Helper lemmas about `listMin`, `listMax` and `sortPairs` -/

theorem foldl_min_le_init : ∀ (l : List ℚ) (a : ℚ), l.foldl min a ≤ a
  | [], a => le_refl a
  | h :: t, a => le_trans (foldl_min_le_init t (min a h)) (min_le_left a h)

theorem foldl_min_le_mem : ∀ (l : List ℚ) (a x : ℚ), x ∈ l → l.foldl min a ≤ x
  | h :: t, a, x, hx => by
      rcases List.mem_cons.mp hx with rfl | hx
      · exact le_trans (foldl_min_le_init t (min a x)) (min_le_right a x)
      · exact foldl_min_le_mem t (min a h) x hx

theorem foldl_min_mem : ∀ (l : List ℚ) (a : ℚ),
    l.foldl min a = a ∨ l.foldl min a ∈ l
  | [], a => Or.inl rfl
  | h :: t, a => by
      rcases foldl_min_mem t (min a h) with he | hm
      · rcases min_choice a h with hc | hc
        · exact Or.inl (by rw [List.foldl_cons, he, hc])
        · exact Or.inr (by rw [List.foldl_cons, he, hc]; exact List.mem_cons_self h t)
      · exact Or.inr (List.mem_cons_of_mem h hm)

theorem listMin_le {l : List ℚ} {x : ℚ} (hx : x ∈ l) : listMin l ≤ x := by
  match l, hx with
  | h :: t, hx =>
      rcases List.mem_cons.mp hx with rfl | hx
      · exact foldl_min_le_init t x
      · exact foldl_min_le_mem t h x hx

theorem listMin_mem {l : List ℚ} (h : l ≠ []) : listMin l ∈ l := by
  match l with
  | a :: t =>
      show t.foldl min a ∈ a :: t
      rcases foldl_min_mem t a with he | hm
      · rw [he]; exact List.mem_cons_self a t
      · exact List.mem_cons_of_mem a hm

theorem listMin_eq_of_perm {l₁ l₂ : List ℚ} (p : l₁.Perm l₂) (h : l₁ ≠ []) :
    listMin l₁ = listMin l₂ := by
  have h₂ : l₂ ≠ [] := fun he => h (List.Perm.eq_nil (he ▸ p))
  exact le_antisymm (listMin_le (p.symm.subset (listMin_mem h₂)))
    (listMin_le (p.subset (listMin_mem h)))

theorem foldl_max_init_le : ∀ (l : List ℚ) (a : ℚ), a ≤ l.foldl max a
  | [], a => le_refl a
  | h :: t, a => le_trans (le_max_left a h) (foldl_max_init_le t (max a h))

theorem foldl_max_mem_le : ∀ (l : List ℚ) (a x : ℚ), x ∈ l → x ≤ l.foldl max a
  | h :: t, a, x, hx => by
      rcases List.mem_cons.mp hx with rfl | hx
      · exact le_trans (le_max_right a x) (foldl_max_init_le t (max a x))
      · exact foldl_max_mem_le t (max a h) x hx

theorem foldl_max_mem : ∀ (l : List ℚ) (a : ℚ),
    l.foldl max a = a ∨ l.foldl max a ∈ l
  | [], a => Or.inl rfl
  | h :: t, a => by
      rcases foldl_max_mem t (max a h) with he | hm
      · rcases max_choice a h with hc | hc
        · exact Or.inl (by rw [List.foldl_cons, he, hc])
        · exact Or.inr (by rw [List.foldl_cons, he, hc]; exact List.mem_cons_self h t)
      · exact Or.inr (List.mem_cons_of_mem h hm)

theorem le_listMax {l : List ℚ} {x : ℚ} (hx : x ∈ l) : x ≤ listMax l := by
  match l, hx with
  | h :: t, hx =>
      rcases List.mem_cons.mp hx with rfl | hx
      · exact foldl_max_init_le t x
      · exact foldl_max_mem_le t h x hx

theorem listMax_mem {l : List ℚ} (h : l ≠ []) : listMax l ∈ l := by
  match l with
  | a :: t =>
      show t.foldl max a ∈ a :: t
      rcases foldl_max_mem t a with he | hm
      · rw [he]; exact List.mem_cons_self a t
      · exact List.mem_cons_of_mem a hm

theorem listMax_eq_of_perm {l₁ l₂ : List ℚ} (p : l₁.Perm l₂) (h : l₁ ≠ []) :
    listMax l₁ = listMax l₂ := by
  have h₂ : l₂ ≠ [] := fun he => h (List.Perm.eq_nil (he ▸ p))
  exact le_antisymm (le_listMax (p.subset (listMax_mem h)))
    (le_listMax (p.symm.subset (listMax_mem h₂)))

theorem listMax_eq_of_mem_of_le {l : List ℚ} {m : ℚ} (hm : m ∈ l)
    (hb : ∀ x ∈ l, x ≤ m) : listMax l = m :=
  le_antisymm (hb _ (listMax_mem (List.ne_nil_of_mem hm))) (le_listMax hm)

theorem sortPairs_perm (l : List (ℚ × ℚ)) : (sortPairs l).Perm l :=
  List.mergeSort_perm l _

theorem sortPairs_sorted (l : List (ℚ × ℚ)) :
    (sortPairs l).Pairwise (fun a b => a.1 ≤ b.1) := by
  have h := @List.sorted_mergeSort (ℚ × ℚ)
    (fun a b : ℚ × ℚ => decide (a.1 ≤ b.1))
    (fun a b c hab hbc => by
      simp only [decide_eq_true_eq] at *
      exact le_trans hab hbc)
    (fun a b => by
      simp only [Bool.or_eq_true, decide_eq_true_eq]
      exact le_total a.1 b.1) l
  exact h.imp (fun hab => of_decide_eq_true hab)

theorem sortPairs_of_sorted {l : List (ℚ × ℚ)}
    (h : l.Pairwise (fun a b => a.1 ≤ b.1)) : sortPairs l = l :=
  List.mergeSort_of_sorted (h.imp (fun hab => decide_eq_true hab))

/-- The store replay returns the same result as the pure pipeline on the
values read from the store. -/
theorem fit_law_heap_result (pwf : ℚ → ℚ → ℚ) (n : ℕ) (cuton cutoff : ℚ)
    (lmu lgw lgi lpw lps : ℕ) (h0 : Heap) :
    (fit_law_heap pwf n cuton cutoff lmu lgw lgi lpw lps h0).2 =
      fit_lawN pwf n (h0.read1 lmu) (h0.read1 lgw) (h0.read2 lgi)
        (h0.read1 lpw) cuton cutoff (some (h0.read1 lps)) := by
  simp only [fit_law_heap, fit_lawN, integratorOut]
  repeat' first | rfl | split

/-- C1 (status: code_bug).  The claim asserts that each law function,
given a coefficient vector of its parameter count, returns
`1 + Phi · coeffs`.  `linear_ld` has one parameter, but its evaluation
branch reads `coeffs[1]` (line 158), so a one-entry coefficient array —
the length its own docstring prescribes — raises `IndexError` instead of
returning the curve; the matrix form `1 + Phi · coeffs` is well-defined
and equals `[3/4]` at `mus = [1/2]`, `coeffs = [1/2]`. -/
theorem C1_linear_ld_eval_raises :
    linear_ld [1 / 2] (some [1 / 2]) = .error .coeffIndexError ∧
      (matVec (linearBasis [1 / 2]) [1 / 2]).map (1 + ·) = [3 / 4] := by
  refine ⟨rfl, ?_⟩
  simp [matVec, linearBasis, dotQ]
  norm_num

/-- C2 (status: code_bug).  The claim asserts that omitting the passband
sensitivity substitutes an all-ones boxcar.  In the source, line 20
subscripts the `None` sensitivity before the `None` test of line 50 is
ever reached, so every call with the sensitivity omitted raises
`TypeError` unconditionally, whatever the other arguments and the
resampling resolution. -/
theorem C2_omitted_sensitivity_raises (pwf : ℚ → ℚ → ℚ) (n : ℕ)
    (gm gw : List ℚ) (gi : List (List ℚ)) (pbw : List ℚ) (con coff : ℚ) :
    fit_lawN pwf n gm gw gi pbw con coff none = .error .noneSensitivity := rfl

/-! ## Properties of `linspace` -/

theorem linspace_length (a b : ℚ) (n : ℕ) : (linspace a b n).length = n := by
  simp [linspace]

theorem linspace_head (a b : ℚ) {n : ℕ} (h : n ≠ 0) :
    (linspace a b n).head? = some a := by
  match n, h with
  | m + 1, _ =>
      simp [linspace, List.range_succ_eq_map]

theorem linspace_getLast (a b : ℚ) (m : ℕ) :
    (linspace a b (m + 2)).getLast? = some b := by
  have hm : ((m : ℚ) + 1) ≠ 0 := by positivity
  unfold linspace
  rw [List.range_succ, List.map_append, List.map_singleton,
    List.getLast?_concat]
  congr 1
  push_cast
  rw [show ((m : ℚ) + 2 - 1) = (m : ℚ) + 1 from by ring]
  field_simp

theorem linspace_getLast' (a b : ℚ) {n : ℕ} (h : 2 ≤ n) :
    (linspace a b n).getLast? = some b := by
  obtain ⟨m, rfl⟩ : ∃ m, n = m + 2 := ⟨n - 2, by omega⟩
  exact linspace_getLast a b m

theorem linspace_getD (a b : ℚ) {n i : ℕ} (h : i < n) :
    (linspace a b n).getD i 0 = a + (i : ℚ) * (b - a) / ((n : ℚ) - 1) := by
  unfold linspace
  rw [List.getD_eq_getElem?_getD, List.getElem?_map, List.getElem?_range h]
  rfl

theorem linspace_pairwise_lt (a b : ℚ) {n : ℕ} (h2 : 2 ≤ n) (hab : a < b) :
    (linspace a b n).Pairwise (· < ·) := by
  have hc : 0 < (b - a) / ((n : ℚ) - 1) := by
    apply div_pos (by linarith)
    have : (2 : ℚ) ≤ (n : ℚ) := by exact_mod_cast h2
    linarith
  unfold linspace
  rw [List.pairwise_map]
  refine (List.pairwise_lt_range n).imp ?_
  intro i j hij
  rw [mul_div_assoc, mul_div_assoc]
  have : (i : ℚ) < (j : ℚ) := by exact_mod_cast hij
  have := mul_lt_mul_of_pos_right this hc
  linarith

theorem linspace_step (a b : ℚ) {n : ℕ} (i : ℕ) (hi : i + 1 < n) :
    (linspace a b n).getD (i + 1) 0 - (linspace a b n).getD i 0 =
      (b - a) / ((n : ℚ) - 1) := by
  rw [linspace_getD a b hi, linspace_getD a b (Nat.lt_of_succ_lt hi)]
  push_cast
  ring

/-- C9 (status: confirmed).  For every channel window with
`cuton < cutoff`, the resampled axis `xf = np.linspace(wavl, wavu, nf)`
has exactly 1,000,000 points, starts at `wavl`, ends at `wavu`, is
strictly increasing, and is uniformly spaced with step
`(wavu - wavl)/(nf - 1)`. -/
theorem C9_resampled_axis (cuton cutoff : ℚ) (h : cuton < cutoff) :
    (linspace (windowLo cuton cutoff) (windowHi cuton cutoff) nf).length =
        1000000 ∧
      (linspace (windowLo cuton cutoff) (windowHi cuton cutoff) nf).head? =
        some (windowLo cuton cutoff) ∧
      (linspace (windowLo cuton cutoff) (windowHi cuton cutoff) nf).getLast? =
        some (windowHi cuton cutoff) ∧
      (linspace (windowLo cuton cutoff) (windowHi cuton cutoff) nf).Pairwise
        (· < ·) ∧
      ∀ i : ℕ, i + 1 < nf →
        (linspace (windowLo cuton cutoff) (windowHi cuton cutoff) nf).getD
              (i + 1) 0 -
            (linspace (windowLo cuton cutoff) (windowHi cuton cutoff) nf).getD
              i 0 =
          (windowHi cuton cutoff - windowLo cuton cutoff) / ((nf : ℚ) - 1) := by
  have hlo : windowLo cuton cutoff < windowHi cuton cutoff := by
    unfold windowLo windowHi
    linarith
  have h2 : 2 ≤ nf := by norm_num [nf]
  exact ⟨linspace_length _ _ _, linspace_head _ _ (by norm_num [nf]),
    linspace_getLast' _ _ h2, linspace_pairwise_lt _ _ h2 hlo,
    fun i hi => linspace_step _ _ i hi⟩

/-- C7 (status: corrected), amended claim.  The least-squares step of
the fitter (`np.linalg.lstsq`, modelled by the minimum-norm solution
`lstsq`) is total: whatever the admissible mu counts, the fitter returns
a coefficient entry for each of the four laws, in source order, and
never raises.  (`C7_counterexample` exhibits an underdetermined input on
which the whole pipeline completes.) -/
theorem C7_fitter_total (pwf : ℚ → ℚ → ℚ) (gm ii : List ℚ) :
    (fitLdCoeffs pwf gm ii).map Prod.fst =
      ["fourparam_nonlin", "threeparam_nonlin", "quadratic", "linear"] := rfl

/-- Witness for C9 at the concrete window `cuton = 0`, `cutoff = 1`. -/
theorem C9_resampled_axis_witness :
    (0 : ℚ) < 1 ∧
      ((linspace (windowLo 0 1) (windowHi 0 1) nf).length = 1000000 ∧
        (linspace (windowLo 0 1) (windowHi 0 1) nf).head? =
          some (windowLo 0 1) ∧
        (linspace (windowLo 0 1) (windowHi 0 1) nf).getLast? =
          some (windowHi 0 1) ∧
        (linspace (windowLo 0 1) (windowHi 0 1) nf).Pairwise (· < ·) ∧
        ∀ i : ℕ, i + 1 < nf →
          (linspace (windowLo 0 1) (windowHi 0 1) nf).getD (i + 1) 0 -
              (linspace (windowLo 0 1) (windowHi 0 1) nf).getD i 0 =
            (windowHi 0 1 - windowLo 0 1) / ((nf : ℚ) - 1)) :=
  ⟨by norm_num, C9_resampled_axis 0 1 (by norm_num)⟩

/-- C8 (status: confirmed).  For every raw passband with parallel
wavelength/sensitivity arrays and positive peak, after padding
(lines 17-25) and normalization (lines 54-57) the sensitivity has
maximum exactly 1, its first and last values are exactly 0, and the
first and last wavelengths are the original minimum minus 0.01 nm and
the original maximum plus 0.01 nm. -/
theorem C8_normalized_passband (wav sens w1 s1 : List ℚ)
    (hlen : sens.length = wav.length) (hpos : 0 < listMax sens)
    (hpad : padPassband wav sens = .ok (w1, s1)) :
    listMax (normalizePassband w1 s1).2 = 1 ∧
      (normalizePassband w1 s1).2.head? = some 0 ∧
      (normalizePassband w1 s1).2.getLast? = some 0 ∧
      (normalizePassband w1 s1).1.head? = some (listMin wav - 1 / 100) ∧
      (normalizePassband w1 s1).1.getLast? = some (listMax wav + 1 / 100) := by
  unfold padPassband at hpad
  rw [if_neg (by omega : ¬ sens.length < wav.length)] at hpad
  rcases hempty : sortPairs (wav.zip sens) with _ | ⟨p, rest⟩
  · rw [hempty] at hpad
    simp at hpad
  rw [hempty] at hpad
  simp only [Except.ok.injEq, Prod.mk.injEq] at hpad
  obtain ⟨hw1, hs1⟩ := hpad
  subst hw1
  subst hs1
  set W := (p :: rest).map Prod.fst with hW
  set S := (p :: rest).map Prod.snd with hS
  have hperm : (p :: rest).Perm (wav.zip sens) := hempty ▸ sortPairs_perm _
  have hWperm : W.Perm wav := by
    have := hperm.map Prod.fst
    rwa [List.map_fst_zip wav sens (le_of_eq hlen.symm)] at this
  have hSperm : S.Perm sens := by
    have := hperm.map Prod.snd
    rwa [List.map_snd_zip wav sens (le_of_eq hlen)] at this
  have hWne : W ≠ [] := by simp [hW]
  have hminW : listMin W = listMin wav := listMin_eq_of_perm hWperm hWne
  have hmaxW : listMax W = listMax wav := listMax_eq_of_perm hWperm hWne
  have hlenWS : W.length = S.length := by simp [hW, hS]
  -- the padded pair list, re-zipped
  have hzip : ((listMin W - 1 / 100) :: W ++ [listMax W + 1 / 100]).zip
        ((0 : ℚ) :: S ++ [(0 : ℚ)]) =
      ((listMin W - 1 / 100, (0 : ℚ)) :: (p :: rest)) ++
        [(listMax W + 1 / 100, (0 : ℚ))] := by
    rw [List.cons_append, List.cons_append, List.zip_cons_cons,
      List.zip_append hlenWS, hW, hS, List.zip_map' Prod.fst Prod.snd]
    simp
  have hmemW : ∀ q ∈ p :: rest, listMin W ≤ q.1 ∧ q.1 ≤ listMax W := by
    intro q hq
    have hq1 : q.1 ∈ W := hW ▸ List.mem_map_of_mem Prod.fst hq
    exact ⟨listMin_le hq1, le_listMax hq1⟩
  have hminmax : listMin W ≤ listMax W :=
    le_trans (listMin_le (listMax_mem hWne)) (le_refl _)
  have hsorted : (((listMin W - 1 / 100) :: W ++ [listMax W + 1 / 100]).zip
        ((0 : ℚ) :: S ++ [(0 : ℚ)])).Pairwise (fun a b => a.1 ≤ b.1) := by
    rw [hzip]
    have hps : (p :: rest).Pairwise (fun a b : ℚ × ℚ => a.1 ≤ b.1) :=
      hempty ▸ sortPairs_sorted (wav.zip sens)
    rw [List.cons_append]
    refine List.Pairwise.cons ?_ (List.pairwise_append.mpr ⟨hps, by simp, ?_⟩)
    · intro q hq
      rcases List.mem_append.mp hq with hq | hq
      · have := (hmemW q hq).1
        linarith
      · simp only [List.mem_singleton] at hq
        subst hq
        simp only []
        linarith
    · intro q hq r hr
      simp only [List.mem_singleton] at hr
      subst hr
      have := (hmemW q hq).2
      simp only []
      linarith
  have hlen1 : ((listMin W - 1 / 100) :: W ++ [listMax W + 1 / 100]).length =
      ((0 : ℚ) :: S ++ [(0 : ℚ)]).length := by
    simp [hlenWS]
  have hnorm : normalizePassband
        ((listMin W - 1 / 100) :: W ++ [listMax W + 1 / 100])
        ((0 : ℚ) :: S ++ [(0 : ℚ)]) =
      ((listMin W - 1 / 100) :: W ++ [listMax W + 1 / 100],
        ((0 : ℚ) :: S ++ [(0 : ℚ)]).map
          (· / listMax ((0 : ℚ) :: S ++ [(0 : ℚ)]))) := by
    unfold normalizePassband
    rw [sortPairs_of_sorted hsorted,
      List.map_fst_zip _ _ (le_of_eq hlen1),
      List.map_snd_zip _ _ (le_of_eq hlen1.symm)]
  have hsne : sens ≠ [] := by
    intro he
    rw [he] at hlen
    have hwe : wav = [] := List.eq_nil_of_length_eq_zero hlen.symm
    rw [he, hwe] at hempty
    simp [sortPairs] at hempty
  have hmaxmem : listMax sens ∈ (0 : ℚ) :: S ++ [(0 : ℚ)] := by
    have : listMax sens ∈ S := hSperm.symm.subset (listMax_mem hsne)
    rw [List.cons_append]
    exact List.mem_cons_of_mem _ (List.mem_append.mpr (Or.inl this))
  have hbound : ∀ x ∈ (0 : ℚ) :: S ++ [(0 : ℚ)], x ≤ listMax sens := by
    intro x hx
    rw [List.cons_append] at hx
    rcases List.mem_cons.mp hx with rfl | hx
    · exact le_of_lt hpos
    · rcases List.mem_append.mp hx with hx | hx
      · exact le_listMax (hSperm.subset hx)
      · simp only [List.mem_singleton] at hx
        subst hx
        exact le_of_lt hpos
  have hM : listMax ((0 : ℚ) :: S ++ [(0 : ℚ)]) = listMax sens :=
    listMax_eq_of_mem_of_le hmaxmem hbound
  have hMpos : 0 < listMax ((0 : ℚ) :: S ++ [(0 : ℚ)]) := hM ▸ hpos
  have hMne : listMax ((0 : ℚ) :: S ++ [(0 : ℚ)]) ≠ 0 := ne_of_gt hMpos
  rw [hnorm]
  refine ⟨?_, ?_, ?_, ?_, ?_⟩
  · refine listMax_eq_of_mem_of_le ?_ ?_
    · have hself : listMax ((0 : ℚ) :: S ++ [(0 : ℚ)]) ∈
          (0 : ℚ) :: S ++ [(0 : ℚ)] := listMax_mem (by simp)
      simpa only [div_self hMne] using
        List.mem_map_of_mem (· / listMax ((0 : ℚ) :: S ++ [(0 : ℚ)])) hself
    · intro y hy
      rcases List.mem_map.mp hy with ⟨x, hx, rfl⟩
      exact (div_le_one hMpos).mpr (le_listMax hx)
  · rw [List.head?_map, List.cons_append]
    simp [zero_div]
  · rw [List.getLast?_map, List.getLast?_concat]
    simp [zero_div]
  · rw [List.cons_append]
    simp [hminW]
  · rw [List.getLast?_concat, hmaxW]

/-- Witness for C8: the raw passband `wav = [2, 1]`, `sens = [3, 1]`
(unsorted, peak 3). -/
theorem C8_normalized_passband_witness :
    ([3, 1] : List ℚ).length = ([2, 1] : List ℚ).length ∧
      0 < listMax [3, 1] ∧
      padPassband [2, 1] [3, 1] =
        .ok ([2 - 1 - 1 / 100, 1, 2, 2 + 1 / 100], [0, 1, 3, 0]) ∧
      (listMax (normalizePassband [2 - 1 - 1 / 100, 1, 2, 2 + 1 / 100]
            [0, 1, 3, 0]).2 = 1 ∧
        (normalizePassband [2 - 1 - 1 / 100, 1, 2, 2 + 1 / 100]
            [0, 1, 3, 0]).2.head? = some 0 ∧
        (normalizePassband [2 - 1 - 1 / 100, 1, 2, 2 + 1 / 100]
            [0, 1, 3, 0]).2.getLast? = some 0 ∧
        (normalizePassband [2 - 1 - 1 / 100, 1, 2, 2 + 1 / 100]
            [0, 1, 3, 0]).1.head? = some (listMin [2, 1] - 1 / 100) ∧
        (normalizePassband [2 - 1 - 1 / 100, 1, 2, 2 + 1 / 100]
            [0, 1, 3, 0]).1.getLast? = some (listMax [2, 1] + 1 / 100)) := by
  have h1 : ([3, 1] : List ℚ).length = ([2, 1] : List ℚ).length := rfl
  have h2 : (0 : ℚ) < listMax [3, 1] := by
    unfold listMax
    norm_num
  have h3 : padPassband [2, 1] [3, 1] =
      .ok ([2 - 1 - 1 / 100, 1, 2, 2 + 1 / 100], [0, 1, 3, 0]) := by
    with_unfolding_all decide
  exact ⟨h1, h2, h3, C8_normalized_passband [2, 1] [3, 1] _ _ h1 h2 h3⟩

/-- C4 (status: confirmed).  Whenever the per-mu integrals complete and
the first one is nonzero, the final step of the integrator (line 105,
division of the whole vector by its own first entry) produces a vector
whose entry at index 0 is exactly 1. -/
theorem C4_integrated_head_one (xf mask isens : List ℚ) (cols : List (List ℚ))
    (w : List ℚ) (i0 : ℚ) (hraw : integratorRaw xf mask isens cols = .ok w)
    (hh : w.head? = some i0) (hne : i0 ≠ 0) :
    integratorOut xf mask isens cols = .ok (w.map (· / i0)) ∧
      (w.map (· / i0)).head? = some 1 := by
  match w, hh with
  | a :: w', hh =>
      rw [List.head?_cons, Option.some.injEq] at hh
      subst hh
      constructor
      · unfold integratorOut
        rw [hraw]
      · rw [List.map_cons, List.head?_cons, div_self hne]

/-- Witness for C4 on a three-point axis with two mu columns. -/
theorem C4_integrated_head_one_witness :
    integratorRaw [0, 1, 2] [1, 1, 1] [1, 1, 1] [[1, 1, 1], [2, 2, 2]] =
        .ok [1, 2] ∧
      ([1, 2] : List ℚ).head? = some 1 ∧ (1 : ℚ) ≠ 0 ∧
      (integratorOut [0, 1, 2] [1, 1, 1] [1, 1, 1] [[1, 1, 1], [2, 2, 2]] =
          .ok (([1, 2] : List ℚ).map (· / 1)) ∧
        (([1, 2] : List ℚ).map (· / 1)).head? = some 1) := by
  have h1 : integratorRaw [0, 1, 2] [1, 1, 1] [1, 1, 1]
      [[1, 1, 1], [2, 2, 2]] = .ok [1, 2] := by
    with_unfolding_all decide
  have h2 : ([1, 2] : List ℚ).head? = some 1 := rfl
  have h3 : (1 : ℚ) ≠ 0 := one_ne_zero
  exact ⟨h1, h2, h3, C4_integrated_head_one _ _ _ _ _ _ h1 h2 h3⟩

/-- C6 (status: confirmed).  If the pipeline reaches the integrator and
no index of the resampled axis has positive interpolated sensitivity,
`fit_law` fails at the integrator stage (the `IndexError` of `ixs[0]` at
line 93, modelled `noPositiveSensitivity`) and no result is produced. -/
theorem C6_degenerate_band (pwf : ℚ → ℚ → ℚ) (n : ℕ) (gm gw : List ℚ)
    (gi : List (List ℚ)) (pbw : List ℚ) (con coff : ℚ) (s w1 s1 : List ℚ)
    (rg1 xf : List ℚ) (rg2 cols : List (List ℚ))
    (hpad : padPassband pbw s = .ok (w1, s1))
    (hrg : restrictGrid gw gi (windowLo con coff) (windowHi con coff) =
      .ok (rg1, rg2))
    (hres : resampleN n (windowLo con coff) (windowHi con coff) rg1 rg2
      gm.length = .ok (xf, cols))
    (hneg : ∀ q ∈ xf.map (interpOne (normalizePassband w1 s1).1
      (normalizePassband w1 s1).2), ¬ 0 < q) :
    fit_lawN pwf n gm gw gi pbw con coff (some s) =
      .error .noPositiveSensitivity := by
  have hio : integratorOut xf
      (xf.map (fun w => if con ≤ w ∧ w ≤ coff then (1 : ℚ) else 0))
      (xf.map (interpOne (normalizePassband w1 s1).1
        (normalizePassband w1 s1).2)) cols = .error .noPositiveSensitivity := by
    have hfil : (List.range xf.length).filter
        (fun i => decide (0 < (xf.map (interpOne (normalizePassband w1 s1).1
          (normalizePassband w1 s1).2)).getD i 0)) = [] := by
      rw [List.filter_eq_nil_iff]
      intro i hi
      rw [List.mem_range] at hi
      simp only [decide_eq_true_eq]
      intro hq
      have hlt : i < (xf.map (interpOne (normalizePassband w1 s1).1
          (normalizePassband w1 s1).2)).length := by simpa using hi
      rw [List.getD_eq_getElem _ _ hlt] at hq
      exact hneg _ (List.getElem_mem hlt) hq
    unfold integratorOut integratorRaw
    simp only [List.length_map] at hfil
    dsimp only
    rw [hfil]
  simp only [fit_lawN, hpad, hrg, hres]
  rw [hio]

set_option maxRecDepth 40000 in
/-- Witness for C6: a passband supported on `[0, 1]` against a grid
window near 105 nm; every interpolated sensitivity is the clamped edge
value 0. -/
theorem C6_degenerate_band_witness :
    padPassband [0, 1] [1, 1] = .ok ([-(1 / 100), 0, 1, 1 + 1 / 100], [0, 1, 1, 0]) ∧
      restrictGrid [100, 105, 110] [[1], [1], [1]] (windowLo 104 106)
          (windowHi 104 106) = .ok ([105], [[1]]) ∧
      resampleN 3 (windowLo 104 106) (windowHi 104 106) [105] [[1]]
          ([(1 : ℚ)] : List ℚ).length =
        .ok (linspace (windowLo 104 106) (windowHi 104 106) 3, [[1, 1, 1]]) ∧
      (∀ q ∈ (linspace (windowLo 104 106) (windowHi 104 106) 3).map
          (interpOne (normalizePassband [-(1 / 100), 0, 1, 1 + 1 / 100]
              [0, 1, 1, 0]).1
            (normalizePassband [-(1 / 100), 0, 1, 1 + 1 / 100] [0, 1, 1, 0]).2),
          ¬ 0 < q) ∧
      fit_lawN pwf0 3 [1] [100, 105, 110] [[1], [1], [1]] [0, 1] 104 106
          (some [1, 1]) = .error .noPositiveSensitivity := by
  have h1 : padPassband [0, 1] [1, 1] =
      .ok ([-(1 / 100), 0, 1, 1 + 1 / 100], [0, 1, 1, 0]) := by
    with_unfolding_all decide
  have h2 : restrictGrid [100, 105, 110] [[1], [1], [1]] (windowLo 104 106)
      (windowHi 104 106) = .ok ([105], [[1]]) := by
    with_unfolding_all decide
  have h3 : resampleN 3 (windowLo 104 106) (windowHi 104 106) [105] [[1]]
      ([(1 : ℚ)] : List ℚ).length =
      .ok (linspace (windowLo 104 106) (windowHi 104 106) 3, [[1, 1, 1]]) := by
    with_unfolding_all decide
  have h4 : ∀ q ∈ (linspace (windowLo 104 106) (windowHi 104 106) 3).map
      (interpOne (normalizePassband [-(1 / 100), 0, 1, 1 + 1 / 100]
          [0, 1, 1, 0]).1
        (normalizePassband [-(1 / 100), 0, 1, 1 + 1 / 100] [0, 1, 1, 0]).2),
      ¬ 0 < q := by
    with_unfolding_all decide
  exact ⟨h1, h2, h3, h4,
    C6_degenerate_band pwf0 3 [1] [100, 105, 110] [[1], [1], [1]] [0, 1]
      104 106 [1, 1] _ _ _ _ _ _ h1 h2 h3 h4⟩

/-- If every stage guard is satisfied — the passband pads, the grid
restricts, the resampling succeeds, there is at least one mu column and
at least one resampled index of positive interpolated sensitivity — then
`fit_lawN` completes and returns the coefficient mapping. -/
theorem fit_lawN_isOk (pwf : ℚ → ℚ → ℚ) (n : ℕ) (gm gw : List ℚ)
    (gi : List (List ℚ)) (pbw : List ℚ) (con coff : ℚ) (s w1 s1 : List ℚ)
    (rg1 xf : List ℚ) (rg2 cols : List (List ℚ))
    (hpad : padPassband pbw s = .ok (w1, s1))
    (hrg : restrictGrid gw gi (windowLo con coff) (windowHi con coff) =
      .ok (rg1, rg2))
    (hres : resampleN n (windowLo con coff) (windowHi con coff) rg1 rg2
      gm.length = .ok (xf, cols))
    (hcols : cols ≠ [])
    (hpos : ∃ i, i < xf.length ∧
      0 < (xf.map (interpOne (normalizePassband w1 s1).1
        (normalizePassband w1 s1).2)).getD i 0) :
    (fit_lawN pwf n gm gw gi pbw con coff (some s)).isOk = true := by
  have hraw : ∃ w, integratorRaw xf
      (xf.map (fun w => if con ≤ w ∧ w ≤ coff then (1 : ℚ) else 0))
      (xf.map (interpOne (normalizePassband w1 s1).1
        (normalizePassband w1 s1).2)) cols = .ok w ∧
      w.length = cols.length := by
    have hpne : (List.range xf.length).filter
        (fun i => decide (0 < (xf.map (interpOne (normalizePassband w1 s1).1
          (normalizePassband w1 s1).2)).getD i 0)) ≠ [] := by
      obtain ⟨i, hi, hq⟩ := hpos
      apply List.ne_nil_of_mem (a := i)
      rw [List.mem_filter]
      exact ⟨List.mem_range.mpr hi, decide_eq_true hq⟩
    unfold integratorRaw
    dsimp only
    rcases hp : (List.range xf.length).filter
        (fun i => decide (0 < (xf.map (interpOne (normalizePassband w1 s1).1
          (normalizePassband w1 s1).2)).getD i 0)) with _ | ⟨p0, rest⟩
    · exact absurd hp hpne
    · exact ⟨_, rfl, by simp⟩
  obtain ⟨w, hw, hwl⟩ := hraw
  have hout : ∃ v, integratorOut xf
      (xf.map (fun w => if con ≤ w ∧ w ≤ coff then (1 : ℚ) else 0))
      (xf.map (interpOne (normalizePassband w1 s1).1
        (normalizePassband w1 s1).2)) cols = .ok v := by
    unfold integratorOut
    rw [hw]
    rcases w with _ | ⟨i0, w'⟩
    · exact absurd (List.eq_nil_of_length_eq_zero hwl.symm) hcols
    · exact ⟨_, rfl⟩
  obtain ⟨v, hv⟩ := hout
  simp only [fit_lawN, hpad, hrg, hres]
  rw [hv]
  rfl

theorem getD_zero_map (f : ℚ → ℚ) {l : List ℚ} {a : ℚ}
    (h : l.head? = some a) : (l.map f).getD 0 0 = f a := by
  cases l with
  | nil => simp at h
  | cons x t =>
      rw [List.head?_cons, Option.some.injEq] at h
      subst h
      rfl

set_option maxRecDepth 40000 in
/-- A concrete family of completing calls: a three-point grid with one
wavelength (5 nm) inside the restriction window, a flat passband over
`[0, 10]` nm, channel `[4, 6]` nm.  For every nonempty `grid_mu` the
full `fit_law` (at the hard-coded million-point resolution) completes. -/
theorem fit_law_demo_isOk (gm : List ℚ) (hgm : gm ≠ []) :
    (fit_law pwf0 gm [0, 5, 10] [[1, 1], [1, 1], [1, 1]] [0, 10] 4 6
      (some [1, 1])).isOk = true := by
  have hpad : padPassband [0, 10] [1, 1] =
      .ok ([-(1 / 100), 0, 10, 10 + 1 / 100], [0, 1, 1, 0]) := by
    with_unfolding_all decide
  have hrg : restrictGrid [0, 5, 10] [[1, 1], [1, 1], [1, 1]]
      (windowLo 4 6) (windowHi 4 6) = .ok ([5], [[1, 1]]) := by
    with_unfolding_all decide
  have hres : resampleN nf (windowLo 4 6) (windowHi 4 6) [5] [[1, 1]]
      gm.length = .ok (linspace (windowLo 4 6) (windowHi 4 6) nf,
        (List.range gm.length).map (fun i =>
          (linspace (windowLo 4 6) (windowHi 4 6) nf).map
            (interpOne [5] ([[(1 : ℚ), 1]].map (fun r => r.getD i 0))))) := by
    unfold resampleN
    rw [if_neg (by simp)]
  have hglen : gm.length ≠ 0 := fun h => hgm (List.eq_nil_of_length_eq_zero h)
  have hcols : (List.range gm.length).map (fun i =>
      (linspace (windowLo 4 6) (windowHi 4 6) nf).map
        (interpOne [5] ([[(1 : ℚ), 1]].map (fun r => r.getD i 0)))) ≠ [] := by
    simp [List.range_eq_nil, hglen]
  have hlen0 : 0 < (linspace (windowLo 4 6) (windowHi 4 6) nf).length := by
    rw [linspace_length]
    norm_num [nf]
  have hval : ((linspace (windowLo 4 6) (windowHi 4 6) nf).map
      (interpOne (normalizePassband [-(1 / 100), 0, 10, 10 + 1 / 100]
          [0, 1, 1, 0]).1
        (normalizePassband [-(1 / 100), 0, 10, 10 + 1 / 100]
          [0, 1, 1, 0]).2)).getD 0 0 =
      interpOne (normalizePassband [-(1 / 100), 0, 10, 10 + 1 / 100]
          [0, 1, 1, 0]).1
        (normalizePassband [-(1 / 100), 0, 10, 10 + 1 / 100] [0, 1, 1, 0]).2
        (windowLo 4 6) :=
    getD_zero_map _ (linspace_head _ _ (by norm_num [nf]))
  have hpos : ∃ i, i < (linspace (windowLo 4 6) (windowHi 4 6) nf).length ∧
      0 < ((linspace (windowLo 4 6) (windowHi 4 6) nf).map
        (interpOne (normalizePassband [-(1 / 100), 0, 10, 10 + 1 / 100]
            [0, 1, 1, 0]).1
          (normalizePassband [-(1 / 100), 0, 10, 10 + 1 / 100]
            [0, 1, 1, 0]).2)).getD i 0 := by
    refine ⟨0, hlen0, ?_⟩
    rw [hval]
    with_unfolding_all decide
  exact fit_lawN_isOk pwf0 nf gm [0, 5, 10] [[1, 1], [1, 1], [1, 1]] [0, 10]
    4 6 [1, 1] _ _ _ _ _ _ hpad hrg hres hcols hpos

/-- C5 (status: corrected), amended claim.  Only an *empty* restriction
window makes `fit_law` fail at the resampling stage (the `ValueError` of
`np.interp` with an empty sample array, modelled `emptyGridWindow`), and
only when there is at least one mu column to interpolate; with exactly
one in-window sample, `np.interp` degenerates to a constant and no error
is raised (`C5_counterexample`). -/
theorem C5_empty_window_raises (pwf : ℚ → ℚ → ℚ) (n : ℕ) (gm gw : List ℚ)
    (gi : List (List ℚ)) (pbw : List ℚ) (con coff : ℚ) (s w1 s1 : List ℚ)
    (rg2 : List (List ℚ))
    (hpad : padPassband pbw s = .ok (w1, s1))
    (hrg : restrictGrid gw gi (windowLo con coff) (windowHi con coff) =
      .ok ([], rg2))
    (hgm : gm ≠ []) :
    fit_lawN pwf n gm gw gi pbw con coff (some s) =
      .error .emptyGridWindow := by
  have hres : resampleN n (windowLo con coff) (windowHi con coff) [] rg2
      gm.length = .error .emptyGridWindow := by
    unfold resampleN
    rw [if_pos ⟨rfl, fun h => hgm (List.eq_nil_of_length_eq_zero h)⟩]
  simp only [fit_lawN, hpad, hrg]
  rw [hres]

set_option maxRecDepth 40000 in
/-- Witness for the amended C5: a one-point grid at 100 nm entirely
outside the window `[3.8, 6.2]` nm. -/
theorem C5_empty_window_raises_witness :
    padPassband [0, 10] [1, 1] =
        .ok ([-(1 / 100), 0, 10, 10 + 1 / 100], [0, 1, 1, 0]) ∧
      restrictGrid [100] [[1]] (windowLo 4 6) (windowHi 4 6) = .ok ([], []) ∧
      ([(1 / 2 : ℚ)] : List ℚ) ≠ [] ∧
      fit_lawN pwf0 5 [1 / 2] [100] [[1]] [0, 10] 4 6 (some [1, 1]) =
        .error .emptyGridWindow := by
  have h1 : padPassband [0, 10] [1, 1] =
      .ok ([-(1 / 100), 0, 10, 10 + 1 / 100], [0, 1, 1, 0]) := by
    with_unfolding_all decide
  have h2 : restrictGrid [100] [[1]] (windowLo 4 6) (windowHi 4 6) =
      .ok ([], []) := by
    with_unfolding_all decide
  refine ⟨h1, h2, by simp, ?_⟩
  exact C5_empty_window_raises pwf0 5 [1 / 2] [100] [[1]] [0, 10] 4 6
    [1, 1] _ _ _ h1 h2 (by simp)

set_option maxRecDepth 40000 in
/-- C5, counterexample to the claim as stated: exactly one stellar-grid
wavelength (5 nm) falls inside the restriction window `[3.8, 6.2]` —
fewer than 2 — yet `fit_law` completes (no `InsufficientDataError`-like
failure): `np.interp` accepts a single sample point and interpolates to
a constant. -/
theorem C5_counterexample :
    restrictGrid [0, 5, 10] [[1, 1], [1, 1], [1, 1]] (windowLo 4 6)
        (windowHi 4 6) = .ok ([5], [[1, 1]]) ∧
      ([(5 : ℚ)] : List ℚ).length < 2 ∧
      (fit_law pwf0 [1 / 2, 1] [0, 5, 10] [[1, 1], [1, 1], [1, 1]] [0, 10]
        4 6 (some [1, 1])).isOk = true := by
  refine ⟨?_, by norm_num, fit_law_demo_isOk [1 / 2, 1] (by simp)⟩
  with_unfolding_all decide

set_option maxRecDepth 40000 in
/-- C7, counterexample to the claim as stated: with `grid_mu = [0, 1/2]`
only one mu value passes the `mu >= 0.05` threshold, fewer than the
quadratic law's two parameters (and two pass `mu >= 0`, fewer than the
four-parameter law's four), yet `fit_law` completes and returns a
coefficient vector for every law — `np.linalg.lstsq` solves the
underdetermined system with the minimum-norm solution instead of
raising. -/
theorem C7_counterexample :
    (([0, 1 / 2] : List ℚ).filter
        (fun mu => decide ((1 / 20 : ℚ) ≤ mu))).length < 2 ∧
      (fit_law pwf0 [0, 1 / 2] [0, 5, 10] [[1, 1], [1, 1], [1, 1]] [0, 10]
        4 6 (some [1, 1])).isOk = true := by
  refine ⟨?_, fit_law_demo_isOk [0, 1 / 2] (by simp)⟩
  with_unfolding_all decide

/-! ## Sorted-list helpers for the normalization index range (C3) -/

theorem sorted_head?_eq {l : List ℕ} (hs : l.Pairwise (· < ·)) {a : ℕ}
    (hmem : a ∈ l) (hle : ∀ x ∈ l, a ≤ x) : l.head? = some a := by
  cases l with
  | nil => cases hmem
  | cons x t =>
      rw [List.head?_cons, Option.some.injEq]
      rcases List.mem_cons.mp hmem with rfl | hmem
      · rfl
      · have h1 := (List.pairwise_cons.mp hs).1 a hmem
        have h2 := hle x (List.mem_cons_self x t)
        omega

theorem sorted_getLast?_eq : ∀ {l : List ℕ}, l.Pairwise (· < ·) →
    ∀ {b : ℕ}, b ∈ l → (∀ x ∈ l, x ≤ b) → l.getLast? = some b
  | [], _, b, hmem, _ => by cases hmem
  | [x], _, b, hmem, _ => by
      rw [List.mem_singleton] at hmem
      subst hmem
      rfl
  | x :: y :: t, hs, b, hmem, hge => by
      rw [List.getLast?_cons_cons]
      have hxy := (List.pairwise_cons.mp hs).1
      apply sorted_getLast?_eq (List.pairwise_cons.mp hs).2
      · rcases List.mem_cons.mp hmem with rfl | hm
        · exfalso
          have h1 := hxy y (List.mem_cons_self y t)
          have h2 := hge y (List.mem_cons_of_mem _ (List.mem_cons_self y t))
          omega
        · exact hm
      · intro z hz
        exact hge z (List.mem_cons_of_mem _ hz)

theorem eq_of_sorted_of_mem_iff : ∀ {l₁ l₂ : List ℕ},
    l₁.Pairwise (· < ·) → l₂.Pairwise (· < ·) →
    (∀ x, x ∈ l₁ ↔ x ∈ l₂) → l₁ = l₂
  | [], [], _, _, _ => rfl
  | [], y :: t₂, _, _, hm => by
      have := (hm y).mpr (List.mem_cons_self y t₂)
      cases this
  | x :: t₁, [], _, _, hm => by
      have := (hm x).mp (List.mem_cons_self x t₁)
      cases this
  | x :: t₁, y :: t₂, h₁, h₂, hm => by
      have hxy : x = y := by
        have hx2 : x ∈ y :: t₂ := (hm x).mp (List.mem_cons_self x t₁)
        have hy1 : y ∈ x :: t₁ := (hm y).mpr (List.mem_cons_self y t₂)
        rcases List.mem_cons.mp hx2 with h | hx
        · exact h
        · rcases List.mem_cons.mp hy1 with h' | hy
          · exact h'.symm
          · have ha := (List.pairwise_cons.mp h₂).1 x hx
            have hb := (List.pairwise_cons.mp h₁).1 y hy
            omega
      subst hxy
      have ht : t₁ = t₂ := by
        apply eq_of_sorted_of_mem_iff (List.pairwise_cons.mp h₁).2
          (List.pairwise_cons.mp h₂).2
        intro z
        constructor
        · intro hz
          have hzx := (List.pairwise_cons.mp h₁).1 z hz
          have hz2 := (hm z).mp (List.mem_cons_of_mem _ hz)
          rcases List.mem_cons.mp hz2 with rfl | h
          · omega
          · exact h
        · intro hz
          have hzx := (List.pairwise_cons.mp h₂).1 z hz
          have hz1 := (hm z).mpr (List.mem_cons_of_mem _ hz)
          rcases List.mem_cons.mp hz1 with rfl | h
          · omega
          · exact h
      rw [ht]

/-- C3 (status: confirmed).  When the indices of positive interpolated
sensitivity form the contiguous block `[a, b]` of the resampled axis,
the integrator computes: a normalization integral that is Simpson's rule
applied to `wavelength * mask * sensitivity` restricted to that block
extended by one index on each side and clamped to the array bounds
(`a - 1 ≤ i ≤ b + 1`, intersected with `[0, nwav)`), a per-mu integral
that is Simpson's rule over the *entire* axis, and the quotient of the
two as the raw integrated intensity. -/
theorem C3_integrator_structure (xf mask isens : List ℚ)
    (cols : List (List ℚ)) (a b : ℕ) (hab : a ≤ b) (hb : b < xf.length)
    (ha : ∀ i < xf.length, (0 < isens.getD i 0 ↔ a ≤ i ∧ i ≤ b)) :
    integratorRaw xf mask isens cols = .ok (cols.map (fun c =>
      simps (amul (amul (amul xf mask) isens) c) xf /
        simps
          (gatherD (amul (amul xf mask) isens)
            ((List.range xf.length).filter
              (fun i => decide (a ≤ i + 1 ∧ i ≤ b + 1))))
          (gatherD xf
            ((List.range xf.length).filter
              (fun i => decide (a ≤ i + 1 ∧ i ≤ b + 1)))))) := by
  have hP : (List.range xf.length).filter
      (fun i => decide (0 < isens.getD i 0)) =
      (List.range xf.length).filter (fun i => decide (a ≤ i ∧ i ≤ b)) := by
    apply List.filter_congr
    intro i hi
    rw [List.mem_range] at hi
    simp only [decide_eq_decide]
    exact ha i hi
  have hamem : a ∈ (List.range xf.length).filter
      (fun i => decide (a ≤ i ∧ i ≤ b)) := by
    rw [List.mem_filter, List.mem_range]
    exact ⟨lt_of_le_of_lt hab hb, decide_eq_true ⟨le_refl a, hab⟩⟩
  unfold integratorRaw
  dsimp only
  rw [hP]
  rcases hPd : (List.range xf.length).filter
      (fun i => decide (a ≤ i ∧ i ≤ b)) with _ | ⟨p0, rest⟩
  · rw [hPd] at hamem
    cases hamem
  · dsimp only
    have hsortP : (p0 :: rest).Pairwise (· < ·) :=
      hPd ▸ List.Pairwise.filter _ (List.sorted_lt_range xf.length)
    have hmemP : ∀ x, x ∈ p0 :: rest ↔ (x < xf.length ∧ a ≤ x ∧ x ≤ b) := by
      intro x
      rw [← hPd]
      simp [List.mem_filter, List.mem_range, and_assoc]
    have hp0 : p0 = a := by
      rw [hPd] at hamem
      have hh := sorted_head?_eq hsortP hamem
        (fun x hx => ((hmemP x).mp hx).2.1)
      rw [List.head?_cons, Option.some.injEq] at hh
      exact hh
    subst hp0
    have hlast : (p0 :: rest).getLast? = some b := by
      apply sorted_getLast?_eq hsortP
      · exact (hmemP b).mpr ⟨hb, hab, le_refl b⟩
      · exact fun x hx => ((hmemP x).mp hx).2.2
    have hlastD : rest.getLastD p0 = b := by
      cases hr : rest with
      | nil =>
          rw [hr] at hlast
          simp only [List.getLast?_singleton, Option.some.injEq] at hlast
          simpa using hlast
      | cons y t =>
          rw [hr, List.getLast?_cons_cons] at hlast
          rw [List.getLastD_eq_getLast?, hlast]
          rfl
    rw [hlastD]
    have hsortPI : (((p0 : ℤ) - 1) ::
        (List.map (fun (i : ℕ) => (i : ℤ)) (p0 :: rest) ++ [(b : ℤ) + 1])).Pairwise
          (· < ·) := by
      refine List.Pairwise.cons ?_ (List.pairwise_append.mpr ⟨?_, ?_, ?_⟩)
      · intro i hi
        rcases List.mem_append.mp hi with hi | hi
        · rcases List.mem_map.mp hi with ⟨j, hj, rfl⟩
          have := ((hmemP j).mp hj).2.1
          omega
        · rw [List.mem_singleton] at hi
          subst hi
          omega
      · rw [List.pairwise_map]
        exact List.Pairwise.imp (fun h => by exact_mod_cast h) hsortP
      · simp
      · intro i hi j hj
        rw [List.mem_singleton] at hj
        subst hj
        rcases List.mem_map.mp hi with ⟨k, hk, rfl⟩
        have := ((hmemP k).mp hk).2.2
        omega
    have hsortA : (List.map Int.toNat
        (List.filter (fun i => decide (0 ≤ i ∧ i < (xf.length : ℤ)))
          (((p0 : ℤ) - 1) ::
            (List.map (fun (i : ℕ) => (i : ℤ)) (p0 :: rest) ++
              [(b : ℤ) + 1])))).Pairwise (· < ·) := by
      rw [List.pairwise_map]
      refine List.Pairwise.imp_of_mem ?_ (List.Pairwise.filter _ hsortPI)
      intro i j hi hj hij
      have h0i := of_decide_eq_true (List.mem_filter.mp hi).2
      omega
    have hsortS : ((List.range xf.length).filter
        (fun i => decide (p0 ≤ i + 1 ∧ i ≤ b + 1))).Pairwise (· < ·) :=
      List.Pairwise.filter _ (List.sorted_lt_range xf.length)
    have hIx : List.map Int.toNat
        (List.filter (fun i => decide (0 ≤ i ∧ i < (xf.length : ℤ)))
          (((p0 : ℤ) - 1) ::
            (List.map (fun (i : ℕ) => (i : ℤ)) (p0 :: rest) ++ [(b : ℤ) + 1]))) =
        (List.range xf.length).filter
          (fun i => decide (p0 ≤ i + 1 ∧ i ≤ b + 1)) := by
      apply eq_of_sorted_of_mem_iff hsortA hsortS
      intro x
      simp only [List.mem_map, List.mem_filter, List.mem_cons, List.mem_append,
        List.mem_singleton, List.mem_range, List.not_mem_nil, or_false,
        decide_eq_true_eq]
      constructor
      · rintro ⟨i, ⟨hcase, h0, hn⟩, rfl⟩
        rcases hcase with rfl | ⟨j, hj, rfl⟩ | rfl
        · omega
        · have hjj := (hmemP j).mp (List.mem_cons.mpr hj)
          omega
        · omega
      · rintro ⟨hxn, hax, hxb⟩
        by_cases hxa : x < p0
        · refine ⟨(x : ℤ), ⟨Or.inl ?_, ?_, ?_⟩, ?_⟩ <;> omega
        · by_cases hxb2 : x ≤ b
          · refine ⟨(x : ℤ), ⟨Or.inr (Or.inl ?_), ?_, ?_⟩, ?_⟩
            · exact ⟨x, List.mem_cons.mp ((hmemP x).mpr ⟨hxn, by omega, hxb2⟩),
                rfl⟩
            · omega
            · omega
            · omega
          · refine ⟨(x : ℤ), ⟨Or.inr (Or.inr ?_), ?_, ?_⟩, ?_⟩ <;> omega
    rw [hIx]

set_option maxRecDepth 40000 in
/-- Witness for C3: a four-point axis whose positive-sensitivity block
is `[1, 2]`. -/
theorem C3_integrator_structure_witness :
    (1 : ℕ) ≤ 2 ∧ 2 < ([0, 1, 2, 3] : List ℚ).length ∧
      (∀ i < ([0, 1, 2, 3] : List ℚ).length,
        (0 < ([0, 1, 1, 0] : List ℚ).getD i 0 ↔ 1 ≤ i ∧ i ≤ 2)) ∧
      integratorRaw [0, 1, 2, 3] [1, 1, 1, 1] [0, 1, 1, 0] [[1, 1, 1, 1]] =
        .ok ([[(1 : ℚ), 1, 1, 1]].map (fun c =>
          simps (amul (amul (amul [0, 1, 2, 3] [1, 1, 1, 1]) [0, 1, 1, 0]) c)
              [0, 1, 2, 3] /
            simps
              (gatherD (amul (amul [0, 1, 2, 3] [1, 1, 1, 1]) [0, 1, 1, 0])
                ((List.range ([0, 1, 2, 3] : List ℚ).length).filter
                  (fun i => decide (1 ≤ i + 1 ∧ i ≤ 2 + 1))))
              (gatherD [0, 1, 2, 3]
                ((List.range ([0, 1, 2, 3] : List ℚ).length).filter
                  (fun i => decide (1 ≤ i + 1 ∧ i ≤ 2 + 1)))))) := by
  have h1 : (1 : ℕ) ≤ 2 := by norm_num
  have h2 : 2 < ([0, 1, 2, 3] : List ℚ).length := by norm_num
  have h3 : ∀ i < ([0, 1, 2, 3] : List ℚ).length,
      (0 < ([0, 1, 1, 0] : List ℚ).getD i 0 ↔ 1 ≤ i ∧ i ≤ 2) := by
    with_unfolding_all decide
  exact ⟨h1, h2, h3,
    C3_integrator_structure [0, 1, 2, 3] [1, 1, 1, 1] [0, 1, 1, 0]
      [[1, 1, 1, 1]] 1 2 h1 h2 h3⟩

theorem heapPreserves_refl (h : Heap) : heapPreserves h h :=
  ⟨le_refl _, fun _ _ => rfl⟩

theorem heapPreserves_alloc {h0 h : Heap} (hp : heapPreserves h0 h)
    (v : ArrVal) : heapPreserves h0 ((h.alloc v).1) := by
  refine ⟨le_trans hp.1 (Nat.le_succ _), fun i hi => ?_⟩
  have h1 := hp.1
  show Function.update h.data h.next (some v) i = h0.data i
  rw [Function.update_noteq (by omega : i ≠ h.next), hp.2 i hi]

theorem heapPreserves_write {h0 h : Heap} (hp : heapPreserves h0 h) {j : ℕ}
    (hj : h0.next ≤ j) (v : ArrVal) : heapPreserves h0 (h.write j v) := by
  refine ⟨hp.1, fun i hi => ?_⟩
  show Function.update h.data j (some v) i = h0.data i
  rw [Function.update_noteq (by omega : i ≠ j), hp.2 i hi]

/-- The writes of the pipeline all target an address returned by an
`alloc` performed during the call, i.e. at or above the caller's
frontier. -/
theorem heapPreserves_write_alloc {h0 g h : Heap} (hp : heapPreserves h0 h)
    (hg : heapPreserves h0 g) (v v' : ArrVal) :
    heapPreserves h0 (h.write ((g.alloc v).2) v') :=
  heapPreserves_write hp (hg.1) v'

attribute [irreducible] Heap.alloc Heap.write

/-- Every store cell below the initial allocation frontier is untouched
by the pipeline: all allocations go to fresh addresses and every
in-place write targets an address allocated during the call. -/
theorem fit_law_heap_frame (pwf : ℚ → ℚ → ℚ) (n : ℕ) (cuton cutoff : ℚ)
    (lmu lgw lgi lpw lps : ℕ) (h0 : Heap) :
    heapPreserves h0
      ((fit_law_heap pwf n cuton cutoff lmu lgw lgi lpw lps h0).1) := by
  unfold fit_law_heap
  dsimp only
  repeat' split
  all_goals try dsimp only
  all_goals
    repeat' first
      | exact heapPreserves_refl h0
      | apply heapPreserves_alloc
      | apply heapPreserves_write_alloc

/-- C10 (status: confirmed).  On the store model of the numpy execution,
none of the five caller-supplied arrays is modified by `fit_law`: every
restriction, padding and interpolation step allocates a fresh array, and
the in-place operations (`yf` column fills, `mask[ixs] = 1`, the two
`/=` statements) write only to arrays allocated during the call. -/
theorem C10_caller_arrays_unchanged (pwf : ℚ → ℚ → ℚ) (n : ℕ)
    (cuton cutoff : ℚ) (lmu lgw lgi lpw lps : ℕ) (h0 : Heap)
    (hmu : lmu < h0.next) (hgw : lgw < h0.next) (hgi : lgi < h0.next)
    (hpw : lpw < h0.next) (hps : lps < h0.next) :
    ((fit_law_heap pwf n cuton cutoff lmu lgw lgi lpw lps h0).1).read1 lmu =
        h0.read1 lmu ∧
      ((fit_law_heap pwf n cuton cutoff lmu lgw lgi lpw lps h0).1).read1 lgw =
        h0.read1 lgw ∧
      ((fit_law_heap pwf n cuton cutoff lmu lgw lgi lpw lps h0).1).read2 lgi =
        h0.read2 lgi ∧
      ((fit_law_heap pwf n cuton cutoff lmu lgw lgi lpw lps h0).1).read1 lpw =
        h0.read1 lpw ∧
      ((fit_law_heap pwf n cuton cutoff lmu lgw lgi lpw lps h0).1).read1 lps =
        h0.read1 lps := by
  have hf :=
    (fit_law_heap_frame pwf n cuton cutoff lmu lgw lgi lpw lps h0).2
  unfold Heap.read1 Heap.read2
  rw [hf lmu hmu, hf lgw hgw, hf lgi hgi, hf lpw hpw, hf lps hps]
  exact ⟨rfl, rfl, rfl, rfl, rfl⟩

/-- Witness for C10: the five caller arrays at addresses 0-4 of a store
with allocation frontier 5. -/
theorem C10_caller_arrays_unchanged_witness :
    (0 : ℕ) < (Heap.mk (fun _ => none) 5).next ∧
      (1 : ℕ) < (Heap.mk (fun _ => none) 5).next ∧
      (2 : ℕ) < (Heap.mk (fun _ => none) 5).next ∧
      (3 : ℕ) < (Heap.mk (fun _ => none) 5).next ∧
      (4 : ℕ) < (Heap.mk (fun _ => none) 5).next ∧
      (((fit_law_heap pwf0 3 4 6 0 1 2 3 4
            (Heap.mk (fun _ => none) 5)).1).read1 0 =
          (Heap.mk (fun _ => none) 5).read1 0 ∧
        ((fit_law_heap pwf0 3 4 6 0 1 2 3 4
            (Heap.mk (fun _ => none) 5)).1).read1 1 =
          (Heap.mk (fun _ => none) 5).read1 1 ∧
        ((fit_law_heap pwf0 3 4 6 0 1 2 3 4
            (Heap.mk (fun _ => none) 5)).1).read2 2 =
          (Heap.mk (fun _ => none) 5).read2 2 ∧
        ((fit_law_heap pwf0 3 4 6 0 1 2 3 4
            (Heap.mk (fun _ => none) 5)).1).read1 3 =
          (Heap.mk (fun _ => none) 5).read1 3 ∧
        ((fit_law_heap pwf0 3 4 6 0 1 2 3 4
            (Heap.mk (fun _ => none) 5)).1).read1 4 =
          (Heap.mk (fun _ => none) 5).read1 4) := by
  refine ⟨?_, ?_, ?_, ?_, ?_, ?_⟩
  · norm_num
  · norm_num
  · norm_num
  · norm_num
  · norm_num
  · exact C10_caller_arrays_unchanged pwf0 3 4 6 0 1 2 3 4
      (Heap.mk (fun _ => none) 5) (by norm_num) (by norm_num) (by norm_num)
      (by norm_num) (by norm_num)

/-! ## The round-trip identity for the three laws whose evaluation
branch is correct

These are not claim theorems; they delimit the `linear_ld` slip of C1:
for the quadratic and the two nonlinear laws, evaluating with a
coefficient vector of the law's parameter count returns exactly
`1 + Phi · coeffs` per mu, where `Phi` is the basis matrix of the
`coeffs = None` branch. -/

theorem quadratic_ld_eval (mus cs : List ℚ) (h : cs.length = 2) :
    quadratic_ld mus (some cs) =
      .ok ("quadratic",
        Sum.inr ((matVec (quadraticBasis mus) cs).map (1 + ·))) := by
  match cs, h with
  | [c0, c1], _ =>
      simp only [quadratic_ld, quadraticBasis, matVec, dotQ, List.map_map]
      refine congrArg _ (congrArg _ (congrArg _ ?_))
      refine List.map_congr_left (fun mu _ => ?_)
      simp only [Function.comp_apply, List.zipWith_cons_cons,
        List.zipWith_nil_right, List.sum_cons, List.sum_nil]
      ring

theorem threeparam_nonlin_ld_eval (pwf : ℚ → ℚ → ℚ) (mus cs : List ℚ)
    (h : cs.length = 3) :
    threeparam_nonlin_ld pwf mus (some cs) =
      .ok ("threeparam_nonlin",
        Sum.inr ((matVec (threeparamBasis pwf mus) cs).map (1 + ·))) := by
  match cs, h with
  | [c0, c1, c2], _ =>
      simp only [threeparam_nonlin_ld, threeparamBasis, matVec, dotQ,
        List.map_map]
      refine congrArg _ (congrArg _ (congrArg _ ?_))
      refine List.map_congr_left (fun mu _ => ?_)
      simp only [Function.comp_apply, List.zipWith_cons_cons,
        List.zipWith_nil_right, List.sum_cons, List.sum_nil]
      ring

theorem fourparam_nonlin_ld_eval (pwf : ℚ → ℚ → ℚ) (mus cs : List ℚ)
    (h : cs.length = 4) :
    fourparam_nonlin_ld pwf mus (some cs) =
      .ok ("fourparam_nonlin",
        Sum.inr ((matVec (fourparamBasis pwf mus) cs).map (1 + ·))) := by
  match cs, h with
  | [c0, c1, c2, c3], _ =>
      simp only [fourparam_nonlin_ld, fourparamBasis, matVec, dotQ,
        List.map_map]
      refine congrArg _ (congrArg _ (congrArg _ ?_))
      refine List.map_congr_left (fun mu _ => ?_)
      simp only [Function.comp_apply, List.zipWith_cons_cons,
        List.zipWith_nil_right, List.sum_cons, List.sum_nil]
      ring

/-- What `linear_ld`'s evaluation branch actually computes: it reads the
*second* entry of the coefficient array, so a two-entry array evaluates
the law with `coeffs[1]` and ignores `coeffs[0]`. -/
theorem linear_ld_eval_reads_second (mus : List ℚ) (c0 c1 : ℚ) :
    linear_ld mus (some [c0, c1]) =
      .ok ("linear", Sum.inr (mus.map (fun mu => 1 - c1 * (1 - mu)))) := rfl

end LimbDark
